import Mathlib

/-!
Verification development for the waveform-extraction core of the repository
(function extract_waveforms in brainbox/io/io.py).

The code is shallowly embedded: the recording (the memmapped sample matrix)
is a total function from sample index and channel index to an integer value,
numpy float64 arithmetic is idealised as exact rational arithmetic (every
concrete input used in a counterexample or witness below has been chosen so
that the float64 computation and the rational computation agree), Python
slice semantics (negative indices counting from the end, clamping to the
array bounds) are modelled explicitly, and every numpy exception the code
can raise (the explicit channel Exception of line 87, IndexError from
integer indexing out of bounds, ValueError from a failing reshape) becomes a
constructor of an error type threaded through Except.
-/

/-- Truncation toward zero, the conversion performed by Python int() and by
numpy astype(int) / C float-to-int casts. -/
def truncQ (q : ℚ) : ℤ :=
  if 0 ≤ q then ⌊q⌋ else ⌈q⌉

/-- Cast of a (rational, idealised float64) value into a 16-bit signed
integer as performed when assigning a float into an int16 numpy array:
truncation toward zero, wrapping modulo 2^16 when out of range (all inputs
used in the theorems below are in range, where this is plain truncation). -/
def toInt16 (q : ℚ) : ℤ :=
  ((truncQ q + 32768) % 65536) - 32768

/-- Errors observable from extract_waveforms.  The code itself only ever
produces the first three: channelError is the Exception raised at line 87,
indexError is a numpy/Python IndexError from indexing with an out-of-bounds
integer (e.g. ts_samples[0] on an empty array, waveforms[i] with i at least
the row count, chunk_sample[1] when there are no chunks), reshapeError is
the ValueError raised by reshape when the element count does not match.
The remaining constructors are the error taxonomy the specification
describes (OutOfRangeWindowError, InvalidInputError, DataRangeError); they
are included so that claims about that taxonomy can be stated, and the
development proves the code never produces them. -/
inductive ExtractError where
  | channelError
  | indexError
  | reshapeError
  | outOfRangeWindow
  | invalidInput
  | dataRange
  deriving DecidableEq

/-- The recording behind the memmapped array file_m: a total valuation of
(sample index, channel index) together with the number of samples (rows).
Column indices are idealised as total; extract_waveforms validates channel
indices before any read on the paths exercised here. -/
structure Recording where
  data : ℕ → ℕ → ℤ
  nSamples : ℕ

/-- Effective start index of the Python slice file[a : b]: a negative start
counts from the end and is clamped at 0, a nonnegative start is clamped at
the length. -/
def sliceStart (N : ℕ) (a : ℤ) : ℕ :=
  if a < 0 then ((N : ℤ) + a).toNat else min a.toNat N

/-- Effective stop index of the Python slice file[a : b]. -/
def sliceStop (N : ℕ) (b : ℤ) : ℕ :=
  if b < 0 then ((N : ℤ) + b).toNat else min b.toNat N

/-- Row indices selected by the Python slice file[a : b] over N rows. -/
def sliceIdx (N : ℕ) (a b : ℤ) : List ℕ :=
  (List.range (sliceStop N b - sliceStart N a)).map (fun i => i + sliceStart N a)

/-- The block file_m[a:b, ch]: one row per selected sample, one column per
entry of the channel selection (fancy indexing keeps duplicates). -/
def readBlock (rec : Recording) (a b : ℤ) (ch : List ℤ) : List (List ℤ) :=
  (sliceIdx rec.nSamples a b).map (fun i => ch.map (fun c => rec.data i c.toNat))

/-- numpy reshape of a flat element list into r rows of c columns (the
caller checks that the element count is r * c before using this). -/
def reshapeRows (flat : List ℤ) (r c : ℕ) : List (List ℤ) :=
  (List.range r).map (fun i => (List.range c).map (fun j => flat.getD (i * c + j) 0))

/-- np.median of a one-dimensional list: middle element of the sorted list
for odd length, average of the two middle elements for even length.
np.median of an empty array is NaN (with a warning); that case is modelled
as 0 and never relied upon by any theorem. -/
def npMedian (l : List ℚ) : ℚ :=
  if l.length % 2 = 1 then (l.insertionSort (· ≤ ·)).getD (l.length / 2) 0
  else if l.length = 0 then 0
  else ((l.insertionSort (· ≤ ·)).getD (l.length / 2 - 1) 0 +
        (l.insertionSort (· ≤ ·)).getD (l.length / 2) 0) / 2

/-- np.median(block, axis=0): the per-column median of a rows-by-columns
block with ncols columns. -/
def colMedians (block : List (List ℤ)) (ncols : ℕ) : List ℚ :=
  (List.range ncols).map (fun c => npMedian (block.map (fun row => ((row.getD c 0 : ℤ) : ℚ))))

/-- The exact per-channel median of the samples in the range [a, b) for the
given channel selection.  This definition follows the specification words
(the comparison object of the single-chunk estimator claim), stated over the
same read model as the code. -/
def exact_median_spec (rec : Recording) (a b : ℤ) (ch : List ℤ) : List ℚ :=
  colMedians (readBlock rec a b ch) ch.length

/-- Line 78: n_wf_samples = np.int(sr / 1000 * (t / 2)), the half width of a
waveform window in samples; np.int truncates toward zero. -/
def n_wf_samples (sr t : ℚ) : ℤ :=
  truncQ (sr / 1000 * (t / 2))

/-- Line 79: one entry of ts_samples = np.array(ts * sr).astype(int);
astype(int) truncates toward zero. -/
def ts_to_sample (x sr : ℚ) : ℤ :=
  truncQ (x * sr)

/-- The sample-index window of one spike: spk_samples runs from c - w up to
but excluding c + w (lines 129 and 132, and the same shape is used by the
probe loop of lines 119-123). -/
def waveform_window (c w : ℤ) : ℤ × ℤ :=
  (c - w, c + w)

/-- Line 86: the channel validation raises iff some channel is negative or
strictly greater than n_ch_probe (note: a channel equal to n_ch_probe
passes). -/
def channel_check (ch : List ℤ) (n_ch_probe : ℤ) : Bool :=
  ch.any (fun c => c < 0) || ch.any (fun c => c > n_ch_probe)

/-- Lines 80-81: the sample range later handed to the spatial-noise
computation, from the first window start to the last window end.  No
clipping of any kind is applied. -/
def noise_range (tss : List ℤ) (w : ℤ) : ℤ × ℤ :=
  (tss.headD 0 - w, tss.getLastD 0 + w)

/-- Lines 95-112, the chunked spatial-noise (CAR baseline) computation, with
the chunk size (5e6 in the code) kept as a parameter csize.  Returns the
baseline vector together with the list of (start, stop) sample ranges read
from the recording, in the order they are performed: first the timing-probe
read of the first chunk (line 104), then one read per chunk (lines 109-111).
Each chunk median is stored into an int16 array (line 101), then the final
baseline is the per-channel median of the chunk medians (line 112).
When the range produces no chunk, accessing chunk_sample[1] at line 104
raises IndexError. -/
def spatial_noise (rec : Recording) (ch : List ℤ) (t_first t_last : ℤ) (csize : ℚ) :
    Except ExtractError (List ℚ × List (ℤ × ℤ)) :=
  let n_chunks : ℤ := ⌈((t_last : ℚ) - (t_first : ℚ)) / csize⌉
  let bounds : List ℤ :=
    ((List.range n_chunks.toNat).map (fun (k : ℕ) => truncQ ((t_first : ℚ) + (k : ℚ) * csize))) ++ [t_last]
  if n_chunks.toNat < 1 then .error .indexError
  else
    let reads : List (ℤ × ℤ) :=
      (List.range n_chunks.toNat).map (fun k => (bounds.getD k 0, bounds.getD (k + 1) 0))
    let chunkMeds : List (List ℤ) :=
      (List.range n_chunks.toNat).map (fun k =>
        (colMedians (readBlock rec (bounds.getD k 0) (bounds.getD (k + 1) 0) ch) ch.length).map toInt16)
    let noise : List ℚ :=
      (List.range ch.length).map (fun c =>
        npMedian (chunkMeds.map (fun row => ((row.getD c 0 : ℤ) : ℚ))))
    .ok (noise, (bounds.getD 0 0, bounds.getD 1 0) :: reads)

/-- One iteration of the timing-probe loop of lines 119-123: read the block
at offset i * 2 * w from t_sample_first, reshape it to (2w, |ch|) (ValueError
when the element counts differ), then assign it into row i of the output
(IndexError when i is not below the number of rows). -/
def probeStep (rec : Recording) (ch : List ℤ) (w t_first : ℤ) (nRows i : ℕ) :
    Except ExtractError (List (List ℤ)) :=
  let a := (i : ℤ) * w * 2 + t_first
  let b := (i : ℤ) * w * 2 + t_first + w * 2
  let block := readBlock rec a b ch
  if block.length * ch.length ≠ (2 * w).toNat * ch.length then .error .reshapeError
  else if i < nRows then .ok (reshapeRows block.flatten (2 * w).toNat ch.length)
  else .error .indexError

/-- Lines 128-132, the read of one spike window: spk_samples =
arange(c - w, c + w); when it is empty, spk_samples[0] raises IndexError;
otherwise the block file_m[c-w : c+w, ch] is reshaped to (2w, |ch|). -/
def spikeRead (rec : Recording) (ch : List ℤ) (w c : ℤ) :
    Except ExtractError (List (List ℤ)) :=
  if (2 * w).toNat = 0 then .error .indexError
  else
    let ab := waveform_window c w
    let block := readBlock rec ab.1 ab.2 ch
    if block.length * ch.length ≠ (2 * w).toNat * ch.length then .error .reshapeError
    else .ok (reshapeRows block.flatten (2 * w).toNat ch.length)

/-- Line 135: waveforms -= noise_s[None, None, :], elementwise subtraction
of the per-channel baseline, broadcast over the time dimension. -/
def applyCar (noise_s : List ℚ) (blk : List (List ℤ)) : List (List ℚ) :=
  blk.map (fun tr => List.zipWith (fun (v : ℤ) (nv : ℚ) => (v : ℚ) - nv) tr noise_s)

/-- Conversion of an extracted integer block into the float64 output tensor
when no CAR is applied. -/
def noCar (blk : List (List ℤ)) : List (List ℚ) :=
  blk.map (fun tr => tr.map (fun (v : ℤ) => (v : ℚ)))

/-- Sequential effectful map: run f on each element in order, aborting at
the first error, exactly as the Python for loops do. -/
def exceptMapList {α β : Type} (f : α → Except ExtractError β) :
    List α → Except ExtractError (List β)
  | [] => .ok []
  | x :: xs =>
    match f x with
    | .error e => .error e
    | .ok y =>
      match exceptMapList f xs with
      | .error e => .error e
      | .ok ys => .ok (y :: ys)

/-- The whole of extract_waveforms (brainbox/io/io.py lines 76-137), with
the recording already opened (line 76), ts the spike timestamps in seconds,
ch the channel selection, t the window duration in ms, sr the sample rate,
and car the CAR flag.  The chunk size of the noise computation is the
hard-coded 5e6 of line 95.  Steps, in source order: compute the half width
(line 78) and the per-spike sample centres (line 79); accessing the first
and last centre (lines 80-81) raises IndexError on empty ts; the channel
validation of lines 86-89; the optional chunked noise computation (lines
92-113); the timing-probe loop over rows 0..4 (lines 119-123); the main
per-spike extraction loop (lines 127-132); the CAR subtraction (line 135).
The rows written by the probe loop are all overwritten by the main loop
whenever the call succeeds, so the successful output is assembled from the
main loop alone. -/
def extract_waveforms (rec : Recording) (ts : List ℚ) (ch : List ℤ)
    (t sr : ℚ) (n_ch_probe : ℤ) (car : Bool) :
    Except ExtractError (List (List (List ℚ))) :=
  let w : ℤ := n_wf_samples sr t
  let tss : List ℤ := ts.map (fun x => ts_to_sample x sr)
  if tss.isEmpty then .error .indexError
  else if channel_check ch n_ch_probe then .error .channelError
  else
    let rg := noise_range tss w
    let noiseRes : Except ExtractError (List ℚ) :=
      if car then
        match spatial_noise rec ch rg.1 rg.2 5000000 with
        | .error e => .error e
        | .ok p => .ok p.1
      else .ok (List.replicate ch.length 0)
    match noiseRes with
    | .error e => .error e
    | .ok noise_s =>
      match exceptMapList (fun i => probeStep rec ch w rg.1 ts.length i) (List.range 5) with
      | .error e => .error e
      | .ok _ =>
        match exceptMapList (fun c => spikeRead rec ch w c) tss with
        | .error e => .error e
        | .ok rows => .ok (if car then rows.map (applyCar noise_s) else rows.map noCar)

/-- A ramp recording: sample i has value i on every channel; 100 samples. -/
def recRamp : Recording := ⟨fun i _ => (i : ℤ), 100⟩

/-- Ramp recording with 60 samples, used for a successful extraction. -/
def recW : Recording := ⟨fun i _ => (i : ℤ), 60⟩

/-- Two samples with values 0 and 1: the exact median over the whole range
is one half. -/
def recHalf : Recording := ⟨fun i _ => if i = 0 then 0 else 1, 2⟩

/-- Four zero samples. -/
def recZero4 : Recording := ⟨fun _ _ => 0, 4⟩

/-- Four samples 0, 0, 1, 1: two chunks of two samples have medians 0 and 1. -/
def recStep : Recording := ⟨fun i _ => if i < 2 then 0 else 1, 4⟩

/-- Forty zero samples. -/
def recZero40 : Recording := ⟨fun _ _ => 0, 40⟩

/-! Helper lemmas about the embedding. -/

theorem truncQ_intCast (z : ℤ) : truncQ ((z : ℤ) : ℚ) = z := by
  unfold truncQ
  split <;> simp

theorem sliceStop_le (N : ℕ) (b : ℤ) : sliceStop N b ≤ N := by
  unfold sliceStop
  split <;> omega

theorem sliceIdx_length (N : ℕ) (a b : ℤ) :
    (sliceIdx N a b).length = sliceStop N b - sliceStart N a := by
  simp [sliceIdx]

theorem sliceIdx_mem_lt (N : ℕ) (a b : ℤ) (i : ℕ) (h : i ∈ sliceIdx N a b) : i < N := by
  simp only [sliceIdx, List.mem_map, List.mem_range] at h
  obtain ⟨j, hj, rfl⟩ := h
  have := sliceStop_le N b
  omega

theorem readBlock_length (rec : Recording) (a b : ℤ) (ch : List ℤ) :
    (readBlock rec a b ch).length = sliceStop rec.nSamples b - sliceStart rec.nSamples a := by
  simp [readBlock, sliceIdx]

/-- A slice that starts below zero but stops at a positive index never has
exactly b - a rows: the negative start wraps to the end of the array, so the
selection is clipped (possibly to empty). -/
theorem slice_len_ne_of_cross (N : ℕ) (a b : ℤ) (ha : a < 0) (hb : 0 < b) :
    sliceStop N b - sliceStart N a ≠ (b - a).toNat := by
  unfold sliceStart sliceStop
  rw [if_pos ha, if_neg (by omega : ¬ b < 0)]
  omega

theorem reshapeRows_length (flat : List ℤ) (r c : ℕ) : (reshapeRows flat r c).length = r := by
  simp [reshapeRows]

theorem reshapeRows_row_length (flat : List ℤ) (r c : ℕ) (tr : List ℤ)
    (h : tr ∈ reshapeRows flat r c) : tr.length = c := by
  simp only [reshapeRows, List.mem_map, List.mem_range] at h
  obtain ⟨i, _, rfl⟩ := h
  simp

theorem npMedian_singleton (x : ℚ) : npMedian [x] = x := by
  simp [npMedian, List.insertionSort, List.orderedInsert]

/-- The median of a nonempty list of integer values is an integer for odd
length and in general an integer or half an odd integer (a multiple of one
half), since it is either an element of the list or the mean of two. -/
theorem npMedian_integral (L : List ℚ) (hL : L ≠ []) (h : ∀ x ∈ L, ∃ z : ℤ, x = (z : ℚ)) :
    (∃ z : ℤ, npMedian L = (z : ℚ) ∨ npMedian L = (z : ℚ) / 2) ∧
    (L.length % 2 = 1 → ∃ z : ℤ, npMedian L = (z : ℚ)) := by
  have hlen : (L.insertionSort (· ≤ ·)).length = L.length := List.length_insertionSort _ _
  have hmem : ∀ i (hi : i < L.length) (d : ℚ),
      ∃ z : ℤ, (L.insertionSort (· ≤ ·)).getD i d = (z : ℚ) := by
    intro i hi d
    rw [List.getD_eq_getElem _ _ (by omega)]
    exact h _ ((List.mem_insertionSort (· ≤ ·)).mp (List.getElem_mem _))
  have hpos : 0 < L.length := List.length_pos.mpr hL
  unfold npMedian
  by_cases hodd : L.length % 2 = 1
  · rw [if_pos hodd]
    obtain ⟨z, hz⟩ := hmem (L.length / 2) (by omega) 0
    exact ⟨⟨z, Or.inl hz⟩, fun _ => ⟨z, hz⟩⟩
  · rw [if_neg hodd, if_neg (by omega)]
    obtain ⟨z1, hz1⟩ := hmem (L.length / 2 - 1) (by omega) 0
    obtain ⟨z2, hz2⟩ := hmem (L.length / 2) (by omega) 0
    refine ⟨⟨z1 + z2, Or.inr ?_⟩, fun hc => absurd hc hodd⟩
    rw [hz1, hz2]
    push_cast
    ring

/-- Specialisation of the median-of-integers fact to the column extraction
performed by the chunk aggregation. -/
theorem npMedian_of_int_rows (rows : List (List ℤ)) (c : ℕ) (hne : rows ≠ []) :
    (∃ z : ℤ, npMedian (rows.map (fun row => ((row.getD c 0 : ℤ) : ℚ))) = (z : ℚ) ∨
              npMedian (rows.map (fun row => ((row.getD c 0 : ℤ) : ℚ))) = (z : ℚ) / 2) ∧
    (rows.length % 2 = 1 →
      ∃ z : ℤ, npMedian (rows.map (fun row => ((row.getD c 0 : ℤ) : ℚ))) = (z : ℚ)) := by
  have hI := npMedian_integral (rows.map (fun row => ((row.getD c 0 : ℤ) : ℚ)))
    (by
      intro h0
      exact hne (by simpa using h0))
    (by
      intro x hx
      simp only [List.mem_map] at hx
      obtain ⟨row, -, rfl⟩ := hx
      exact ⟨_, rfl⟩)
  exact ⟨hI.1, fun hodd => hI.2 (by simpa using hodd)⟩

theorem range_map_getD {α β : Type} (l : List α) (g : α → β) (d : α) :
    (List.range l.length).map (fun i => g (l.getD i d)) = l.map g := by
  induction l with
  | nil => simp
  | cons x xs ih =>
    rw [List.length_cons, List.range_succ_eq_map, List.map_cons, List.map_map]
    have h0 : (fun i => g ((x :: xs).getD i d)) ∘ Nat.succ = fun i => g (xs.getD i d) := by
      funext i
      simp
    rw [h0, ih, List.map_cons]
    simp

/-! Inversion lemmas for the sequential effectful map. -/

theorem exceptMapList_ok_forall {α β : Type} {f : α → Except ExtractError β} {l : List α}
    {ys : List β} (h : exceptMapList f l = .ok ys) : ∀ x ∈ l, ∃ y, f x = .ok y := by
  induction l generalizing ys with
  | nil => simp
  | cons a as ih =>
    intro x hx
    unfold exceptMapList at h
    cases hfa : f a with
    | error e => rw [hfa] at h; exact absurd h (by simp)
    | ok y =>
      rw [hfa] at h
      cases hrest : exceptMapList f as with
      | error e => rw [hrest] at h; exact absurd h (by simp)
      | ok ys0 =>
        rcases List.mem_cons.mp hx with rfl | hmem
        · exact ⟨y, hfa⟩
        · exact ih hrest x hmem

theorem exceptMapList_ok_length {α β : Type} {f : α → Except ExtractError β} {l : List α}
    {ys : List β} (h : exceptMapList f l = .ok ys) : ys.length = l.length := by
  induction l generalizing ys with
  | nil => unfold exceptMapList at h; cases h; rfl
  | cons a as ih =>
    unfold exceptMapList at h
    cases hfa : f a with
    | error e => rw [hfa] at h; exact absurd h (by simp)
    | ok y =>
      rw [hfa] at h
      cases hrest : exceptMapList f as with
      | error e => rw [hrest] at h; exact absurd h (by simp)
      | ok ys0 =>
        rw [hrest] at h
        cases h
        simpa using ih hrest

theorem exceptMapList_ok_getD {α β : Type} {f : α → Except ExtractError β} {l : List α}
    {ys : List β} (h : exceptMapList f l = .ok ys) :
    ∀ i, i < l.length → ∀ (d : α) (dy : β), f (l.getD i d) = .ok (ys.getD i dy) := by
  induction l generalizing ys with
  | nil => simp
  | cons a as ih =>
    intro i hi d dy
    unfold exceptMapList at h
    cases hfa : f a with
    | error e => rw [hfa] at h; exact absurd h (by simp)
    | ok y =>
      rw [hfa] at h
      cases hrest : exceptMapList f as with
      | error e => rw [hrest] at h; exact absurd h (by simp)
      | ok ys0 =>
        rw [hrest] at h
        cases h
        cases i with
        | zero => simpa using hfa
        | succ j => simpa using ih hrest j (by simpa using hi) d dy

theorem exceptMapList_ok_mem {α β : Type} {f : α → Except ExtractError β} {l : List α}
    {ys : List β} (h : exceptMapList f l = .ok ys) :
    ∀ y ∈ ys, ∃ x ∈ l, f x = .ok y := by
  induction l generalizing ys with
  | nil => unfold exceptMapList at h; cases h; simp
  | cons a as ih =>
    intro y hy
    unfold exceptMapList at h
    cases hfa : f a with
    | error e => rw [hfa] at h; exact absurd h (by simp)
    | ok y0 =>
      rw [hfa] at h
      cases hrest : exceptMapList f as with
      | error e => rw [hrest] at h; exact absurd h (by simp)
      | ok ys0 =>
        rw [hrest] at h
        cases h
        rcases List.mem_cons.mp hy with rfl | hmem
        · exact ⟨a, List.mem_cons_self _ _, hfa⟩
        · obtain ⟨x, hx, hfx⟩ := ih hrest y hmem
          exact ⟨x, List.mem_cons_of_mem _ hx, hfx⟩

theorem exceptMapList_error_exists {α β : Type} {f : α → Except ExtractError β} {l : List α}
    {e : ExtractError} (h : exceptMapList f l = .error e) : ∃ x ∈ l, f x = .error e := by
  induction l with
  | nil => exact absurd h (by simp [exceptMapList])
  | cons a as ih =>
    unfold exceptMapList at h
    cases hfa : f a with
    | error e0 =>
      rw [hfa] at h
      cases h
      exact ⟨a, List.mem_cons_self _ _, hfa⟩
    | ok y =>
      rw [hfa] at h
      cases hrest : exceptMapList f as with
      | error e0 =>
        rw [hrest] at h
        cases h
        obtain ⟨x, hx, hfx⟩ := ih hrest
        exact ⟨x, List.mem_cons_of_mem _ hx, hfx⟩
      | ok ys0 => rw [hrest] at h; exact absurd h (by simp)

theorem getD_map_lt {α β : Type} (l : List α) (f : α → β) (i : ℕ) (hi : i < l.length)
    (d : β) (d0 : α) : (l.map f).getD i d = f (l.getD i d0) := by
  rw [List.getD_eq_getElem _ _ (by simpa using hi), List.getElem_map,
      List.getD_eq_getElem _ _ hi]

/-! Inversion lemmas for the components of extract_waveforms. -/

theorem spatial_noise_error_eq (rec : Recording) (ch : List ℤ) (t_first t_last : ℤ)
    (csize : ℚ) (e : ExtractError)
    (h : spatial_noise rec ch t_first t_last csize = .error e) : e = .indexError := by
  simp only [spatial_noise] at h
  split at h
  · injection h with h
    exact h.symm
  · exact absurd h (by simp)

theorem spatial_noise_noise_length (rec : Recording) (ch : List ℤ) (t_first t_last : ℤ)
    (csize : ℚ) (p : List ℚ × List (ℤ × ℤ))
    (h : spatial_noise rec ch t_first t_last csize = .ok p) : p.1.length = ch.length := by
  simp only [spatial_noise] at h
  split at h
  · exact absurd h (by simp)
  · injection h with h
    rw [← h]
    simp

theorem probeStep_error_enum (rec : Recording) (ch : List ℤ) (w t_first : ℤ)
    (nRows i : ℕ) (e : ExtractError)
    (h : probeStep rec ch w t_first nRows i = .error e) :
    e = .reshapeError ∨ e = .indexError := by
  simp only [probeStep] at h
  split at h
  · injection h with h
    exact Or.inl h.symm
  · split at h
    · exact absurd h (by simp)
    · injection h with h
      exact Or.inr h.symm

theorem probeStep_not_ok (rec : Recording) (ch : List ℤ) (w t_first : ℤ)
    (nRows i : ℕ) (hge : nRows ≤ i) (blk : List (List ℤ)) :
    probeStep rec ch w t_first nRows i ≠ .ok blk := by
  simp only [probeStep]
  split
  · simp
  · rw [if_neg (by omega : ¬ i < nRows)]
    simp

theorem spikeRead_error_enum (rec : Recording) (ch : List ℤ) (w c : ℤ) (e : ExtractError)
    (h : spikeRead rec ch w c = .error e) : e = .indexError ∨ e = .reshapeError := by
  simp only [spikeRead] at h
  split at h
  · injection h with h
    exact Or.inl h.symm
  · split at h
    · injection h with h
      exact Or.inr h.symm
    · exact absurd h (by simp)

theorem spikeRead_ok_shape (rec : Recording) (ch : List ℤ) (w c : ℤ) (blk : List (List ℤ))
    (h : spikeRead rec ch w c = .ok blk) :
    blk.length = (2 * w).toNat ∧ ∀ tr ∈ blk, tr.length = ch.length := by
  simp only [spikeRead] at h
  split at h
  · exact absurd h (by simp)
  · split at h
    · exact absurd h (by simp)
    · injection h with h
      rw [← h]
      exact ⟨reshapeRows_length _ _ _, fun tr htr => reshapeRows_row_length _ _ _ _ htr⟩

/-- Any spike whose window crosses sample zero (negative start, positive
stop) makes the line-132 read come back with the wrong number of rows, so
the reshape raises ValueError; this holds for every recording with at least
one sample and a nonempty channel selection. -/
theorem spikeRead_crossing (rec : Recording) (ch : List ℤ) (w c : ℤ)
    (hch : ch ≠ []) (ha : c - w < 0) (hb : 0 < c + w) :
    spikeRead rec ch w c = .error .reshapeError := by
  have hchlen : ch.length ≠ 0 := fun h0 => hch (List.length_eq_zero.mp h0)
  have hne : sliceStop rec.nSamples (c + w) - sliceStart rec.nSamples (c - w)
      ≠ (2 * w).toNat := by
    have h2 : (2 : ℤ) * w = (c + w) - (c - w) := by ring
    rw [h2]
    exact slice_len_ne_of_cross rec.nSamples (c - w) (c + w) ha hb
  have hcond : (readBlock rec (c - w) (c + w) ch).length * ch.length
      ≠ (2 * w).toNat * ch.length := by
    rw [readBlock_length]
    intro hEq
    exact hne (Nat.eq_of_mul_eq_mul_right (Nat.pos_of_ne_zero hchlen) hEq)
  simp only [spikeRead, waveform_window]
  rw [if_neg (by omega : ¬ (2 * w).toNat = 0), if_pos hcond]

/-- Every error extract_waveforms can produce is one of the three errors the
code actually raises: the channel Exception (and then the channel check
failed), an IndexError, or a reshape ValueError.  In particular none of the
taxonomy errors of the specification (OutOfRangeWindowError,
InvalidInputError, DataRangeError) is ever produced. -/
theorem extract_error_enum (rec : Recording) (ts : List ℚ) (ch : List ℤ) (t sr : ℚ)
    (n : ℤ) (car : Bool) (e : ExtractError)
    (h : extract_waveforms rec ts ch t sr n car = .error e) :
    (e = .channelError ∧ channel_check ch n = true) ∨ e = .indexError ∨ e = .reshapeError := by
  simp only [extract_waveforms] at h
  split at h
  · injection h with h
    exact Or.inr (Or.inl h.symm)
  · split at h
    · next hcc =>
      injection h with h
      exact Or.inl ⟨h.symm, by simpa using hcc⟩
    · split at h
      · next e0 heq =>
        injection h with h
        subst h
        split at heq
        · split at heq
          · next e1 heq2 =>
            injection heq with heq
            subst heq
            exact Or.inr (Or.inl (spatial_noise_error_eq _ _ _ _ _ _ heq2))
          · exact absurd heq (by simp)
        · exact absurd heq (by simp)
      · next noise_s heq =>
        split at h
        · next e0 heq2 =>
          injection h with h
          subst h
          obtain ⟨i, _, hi⟩ := exceptMapList_error_exists heq2
          rcases probeStep_error_enum _ _ _ _ _ _ _ hi with h1 | h1
          · exact Or.inr (Or.inr h1)
          · exact Or.inr (Or.inl h1)
        · split at h
          · next e0 heq3 =>
            injection h with h
            subst h
            obtain ⟨c, _, hc⟩ := exceptMapList_error_exists heq3
            rcases spikeRead_error_enum _ _ _ _ _ hc with h1 | h1
            · exact Or.inr (Or.inl h1)
            · exact Or.inr (Or.inr h1)
          · exact absurd h (by simp)

/-- Success inversion for extract_waveforms: on a successful call the
timestamp list is nonempty, the channel check passed, the probe loop
succeeded on all five iterations, and the output is the per-spike main loop
result (with the CAR baseline subtracted when car is set). -/
theorem extract_ok_inversion (rec : Recording) (ts : List ℚ) (ch : List ℤ) (t sr : ℚ)
    (n : ℤ) (car : Bool) (wf : List (List (List ℚ)))
    (h : extract_waveforms rec ts ch t sr n car = .ok wf) :
    (ts.map (fun x => ts_to_sample x sr)) ≠ [] ∧
    channel_check ch n = false ∧
    (∀ i ∈ List.range 5, ∃ blk, probeStep rec ch (n_wf_samples sr t)
        (noise_range (ts.map (fun x => ts_to_sample x sr)) (n_wf_samples sr t)).1
        ts.length i = .ok blk) ∧
    (∃ noise_s rows, noise_s.length = ch.length ∧
      exceptMapList (fun c => spikeRead rec ch (n_wf_samples sr t) c)
        (ts.map (fun x => ts_to_sample x sr)) = .ok rows ∧
      wf = (if car then rows.map (applyCar noise_s) else rows.map noCar)) := by
  simp only [extract_waveforms] at h
  split at h
  · exact absurd h (by simp)
  · split at h
    · exact absurd h (by simp)
    · next hemp hcc =>
      refine ⟨by simpa using hemp, by simpa using hcc, ?_⟩
      split at h
      · exact absurd h (by simp)
      · next noise_s heq =>
        split at h
        · exact absurd h (by simp)
        · next u hprobe =>
          split at h
          · exact absurd h (by simp)
          · next rows hrows =>
            injection h with h
            refine ⟨fun i hi => exceptMapList_ok_forall hprobe i hi, noise_s, rows, ?_, hrows, h.symm⟩
            split at heq
            · split at heq
              · exact absurd heq (by simp)
              · next p heq2 =>
                injection heq with heq
                rw [← heq]
                exact spatial_noise_noise_length _ _ _ _ _ _ heq2
            · injection heq with heq
              rw [← heq]
              simp

/-! Claim theorems. -/

/-- C2 counterexample: with sample rate 32768 and a 2 ms window the code
computes a half width of 32 samples where rounding (as the claim states)
gives round(32.768) = 33, and for the timestamp 3/65536 s (whose product
with the sample rate is exactly 1.5, also in float64) the code computes
sample 1 where rounding gives 2, so neither conversion uses rounding. -/
theorem windower_rounding_cex :
    n_wf_samples 32768 2 = 32 ∧ round ((32768 : ℚ) / 1000 * (2 / 2)) = 33 ∧
    ts_to_sample (3 / 65536) 32768 = 1 ∧ round ((3 : ℚ) / 65536 * 32768) = 2 := by
  refine ⟨by with_unfolding_all rfl, ?_, by with_unfolding_all rfl, ?_⟩ <;>
    · rw [round_eq]
      with_unfolding_all rfl

/-- C2 (amended): the windower is exact with truncation toward zero in
place of rounding: for every timestamp the window start is
trunc(t*sr) - half_width with half_width = trunc(sr/1000 * dur/2), the
exclusive range has length exactly 2 * half_width, and it is centred on
trunc(t*sr); the same truncation is applied to both conversions. -/
theorem waveform_window_trunc_exact (tq sr dur : ℚ) :
    (waveform_window (ts_to_sample tq sr) (n_wf_samples sr dur)).1
      = truncQ (tq * sr) - truncQ (sr / 1000 * (dur / 2)) ∧
    (waveform_window (ts_to_sample tq sr) (n_wf_samples sr dur)).2
      - (waveform_window (ts_to_sample tq sr) (n_wf_samples sr dur)).1
      = 2 * truncQ (sr / 1000 * (dur / 2)) ∧
    (waveform_window (ts_to_sample tq sr) (n_wf_samples sr dur)).1
      + n_wf_samples sr dur = truncQ (tq * sr) := by
  refine ⟨rfl, ?_, ?_⟩ <;>
    · simp only [waveform_window, ts_to_sample, n_wf_samples]
      ring

/-- C5 (code bug): the line-86 validation accepts the channel selection
[385] on a 385-channel probe even though 385 is outside [0, 385): the check
compares with strictly-greater-than instead of greater-or-equal, so the
boundary index channel_count passes validation (and the subsequent fancy
index read of column 385 of a 385-column recording raises IndexError in
numpy, not the validation error). -/
theorem channel_check_boundary_bug :
    channel_check [385] 385 = false ∧ ¬ ((0 : ℤ) ≤ 385 ∧ (385 : ℤ) < 385) := by
  exact ⟨by decide, by omega⟩

/-- C6 counterexample: an empty timestamp sequence makes the call fail with
an IndexError (raised by ts_samples[0] at line 80), not with the
InvalidInputError the claim requires, and no structural validation of the
timestamps or of the window width exists in the code. -/
theorem empty_ts_error_cex :
    extract_waveforms recRamp [] [0] 2 30000 385 true = .error .indexError ∧
    ExtractError.indexError ≠ ExtractError.invalidInput := by
  exact ⟨by with_unfolding_all rfl, by decide⟩

/-- C6 (amended): on an empty timestamp list extract_waveforms fails with an
IndexError at the window-bound computation of line 80, for every recording,
channel selection and parameter set: the failure precedes the channel check
(it happens even for invalid channels) and does not depend on the recording
contents (no sample is read), but it is an IndexError, not the
InvalidInputError of the claimed taxonomy, and no other structural
validation (window width, timestamps) is performed by the code. -/
theorem extract_empty_ts_indexError (rec : Recording) (ch : List ℤ) (t sr : ℚ)
    (n : ℤ) (car : Bool) :
    extract_waveforms rec [] ch t sr n car = .error .indexError := rfl

/-- C1 counterexample: a spike at 1 s with sample rate 10 and a 6000 ms
window has its window start at sample -20 < 0; the call does fail, but with
the reshape ValueError (the negative slice start wraps to the end of the
recording and returns no rows), not with an OutOfRangeWindowError, which
the code cannot raise. -/
theorem extract_neg_window_not_oorw_cex :
    extract_waveforms recRamp [1] [0] 6000 10 5 false = .error .reshapeError ∧
    ExtractError.reshapeError ≠ ExtractError.outOfRangeWindow := by
  exact ⟨by with_unfolding_all rfl, by decide⟩

/-- C1 (amended): whenever some spike's window starts below sample 0 (and
stops above 0, as is the case for every nonnegative timestamp), the whole
call fails on any recording with at least one sample and a nonempty channel
selection — but the error is never an OutOfRangeWindowError (the code has
no such error; the failure surfaces as a reshape ValueError, or an earlier
IndexError / channel Exception).  The sample indices the slices actually
read all lie inside [0, total_samples) because Python slicing clamps, which
is also why the failing window manifests as a wrong row count. -/
theorem extract_neg_window_fails (rec : Recording) (ts : List ℚ) (ch : List ℤ)
    (t sr : ℚ) (n : ℤ) (car : Bool) (hch : ch ≠ [])
    (hk : ∃ tq ∈ ts, ts_to_sample tq sr - n_wf_samples sr t < 0 ∧
          0 < ts_to_sample tq sr + n_wf_samples sr t) :
    ∃ e, extract_waveforms rec ts ch t sr n car = .error e ∧ e ≠ .outOfRangeWindow := by
  obtain ⟨tq, htq, ha, hb⟩ := hk
  cases hE : extract_waveforms rec ts ch t sr n car with
  | ok wf =>
    obtain ⟨-, -, -, noise_s, rows, -, hrows, -⟩ := extract_ok_inversion _ _ _ _ _ _ _ _ hE
    obtain ⟨blk, hblk⟩ := exceptMapList_ok_forall hrows (ts_to_sample tq sr)
      (List.mem_map_of_mem _ htq)
    rw [spikeRead_crossing rec ch (n_wf_samples sr t) (ts_to_sample tq sr) hch ha hb] at hblk
    exact absurd hblk (by simp)
  | error e =>
    refine ⟨e, rfl, ?_⟩
    rcases extract_error_enum _ _ _ _ _ _ _ _ hE with ⟨h1, -⟩ | h1 | h1 <;> simp [h1]

/-- C1 witness: the amended statement instantiated at the concrete
counterexample input. -/
theorem extract_neg_window_fails_witness :
    ∃ e, extract_waveforms recRamp [1] [0] 6000 10 5 false = .error e ∧
      e ≠ .outOfRangeWindow := by
  refine extract_neg_window_fails recRamp [1] [0] 6000 10 5 false (by simp)
    ⟨1, by simp, by with_unfolding_all decide, by with_unfolding_all decide⟩

/-- C9 counterexample: one spike at 4 s (sample 40), window half width 30,
recording of 100 samples: the spike window [10, 70) is fully in range and
the channels are valid, yet the call fails — but with the reshape
ValueError (the second probe read [70, 130) is clipped to 30 rows), not
with an index error as the claim states. -/
theorem short_ts_reshape_cex :
    extract_waveforms recRamp [4] [0] 6000 10 5 false = .error .reshapeError ∧
    ExtractError.reshapeError ≠ ExtractError.indexError := by
  exact ⟨by with_unfolding_all rfl, by decide⟩

/-- C9 (amended): every call with fewer than five spike timestamps (and a
channel selection passing the line-86 check) fails before completing: the
probe loop of lines 119-123 unconditionally attempts to write rows 0
through 4, so at row index |ts| it raises an IndexError — unless one of its
reads already fails to reshape (or the call failed even earlier), so the
surfaced error is an IndexError or a reshape ValueError. -/
theorem extract_short_ts_fails (rec : Recording) (ts : List ℚ) (ch : List ℤ)
    (t sr : ℚ) (n : ℤ) (car : Bool) (hlen : ts.length < 5)
    (hcc : channel_check ch n = false) :
    ∃ e, extract_waveforms rec ts ch t sr n car = .error e ∧
      (e = .indexError ∨ e = .reshapeError) := by
  cases hE : extract_waveforms rec ts ch t sr n car with
  | ok wf =>
    obtain ⟨-, -, hprobe, -⟩ := extract_ok_inversion _ _ _ _ _ _ _ _ hE
    obtain ⟨blk, hblk⟩ := hprobe ts.length (List.mem_range.mpr hlen)
    exact absurd hblk (probeStep_not_ok _ _ _ _ _ _ le_rfl _)
  | error e =>
    refine ⟨e, rfl, ?_⟩
    rcases extract_error_enum _ _ _ _ _ _ _ _ hE with ⟨-, h2⟩ | h1 | h1
    · rw [hcc] at h2
      cases h2
    · exact Or.inl h1
    · exact Or.inr h1

/-- C9 witness: the amended statement instantiated at the concrete
counterexample input (one valid spike, valid channels). -/
theorem extract_short_ts_fails_witness :
    ∃ e, extract_waveforms recRamp [4] [0] 6000 10 5 false = .error e ∧
      (e = .indexError ∨ e = .reshapeError) :=
  extract_short_ts_fails recRamp [4] [0] 6000 10 5 false (by simp) (by decide)

/-- C4 counterexample: a single spike at 1 s with sample rate 10 and half
width 30 gives the unclipped noise range (-20, 40): the start handed to the
estimator is negative (the claim says it is clipped to 0), and the
estimator indeed performs its probe and chunk reads with the raw range
(-20, 40). -/
theorem noise_range_unclipped_cex :
    noise_range ([(1 : ℚ)].map (fun x => ts_to_sample x 10)) (n_wf_samples 10 6000)
      = (-20, 40) ∧ ((-20 : ℤ) < 0) ∧
    spatial_noise recZero40 [0] (-20) 40 5000000 = .ok ([0], [(-20, 40), (-20, 40)]) := by
  exact ⟨by with_unfolding_all rfl, by decide, by with_unfolding_all rfl⟩

/-- C4 (amended): the range handed to the estimator spans from the first
window start to the last window end with NO clipping: the probe read passes
the raw t_first through even when it is negative (claim falsified), while
the sample indices the estimator physically reads are nevertheless always
inside [0, total_samples), because Python slice semantics clamp every
requested range at read time. -/
theorem spatial_noise_reads_in_bounds (rec : Recording) (ch : List ℤ)
    (t_first t_last : ℤ) (csize : ℚ) (p : List ℚ × List (ℤ × ℤ))
    (h : spatial_noise rec ch t_first t_last csize = .ok p) :
    (∀ r ∈ p.2, ∀ i ∈ sliceIdx rec.nSamples r.1 r.2, i < rec.nSamples) ∧
    (p.2.getD 0 (0, 0)).1 = t_first := by
  constructor
  · intro r _ i hi
    exact sliceIdx_mem_lt _ _ _ _ hi
  · simp only [spatial_noise] at h
    split at h
    · exact absurd h (by simp)
    · next hn =>
      injection h with h
      rw [← h]
      simp only [List.getD_cons_zero]
      rw [List.getD_eq_getElem _ _ (by
            simp only [List.length_append, List.length_map, List.length_range,
              List.length_cons, List.length_nil]
            omega),
          List.getElem_append_left (by
            simp only [List.length_map, List.length_range]
            omega)]
      simp [truncQ_intCast]

/-- C4 witness: at the counterexample input the estimator receives start
-20, and every physically read sample index (for instance index 20, the
first one the wrapped probe read touches) is inside the recording. -/
theorem spatial_noise_reads_in_bounds_witness :
    (20 : ℕ) < recZero40.nSamples ∧ ((-20 : ℤ), (40 : ℤ)).1 = -20 := by
  have h := spatial_noise_reads_in_bounds recZero40 [0] (-20) 40 5000000
    ([0], [(-20, 40), (-20, 40)]) (by with_unfolding_all rfl)
  exact ⟨h.1 (-20, 40) (by simp) 20 (by decide), by simp⟩

/-- C8 counterexample: over the range [0, 4) with chunk size 2 the
estimator performs three reads — the timing-probe read of the first chunk
(line 104) plus one read per chunk — not the two reads the claim states. -/
theorem noise_read_count_cex :
    spatial_noise recZero4 [0] 0 4 2 = .ok ([0], [(0, 2), (0, 2), (2, 4)]) ∧
    (⌈(((4 : ℤ) : ℚ) - ((0 : ℤ) : ℚ)) / 2⌉ = 2) ∧
    ([((0 : ℤ), (2 : ℤ)), (0, 2), (2, 4)].length ≠ 2) := by
  refine ⟨by with_unfolding_all rfl, ?_, by decide⟩
  rw [Int.ceil_eq_iff]
  constructor <;> norm_num

/-- C8 (amended): the estimator is read-only (it is a pure function of the
recording) and performs 1 + ceil((end-start)/chunk_size) reads: the extra
initial read is the line-104 timing probe, which re-reads exactly the first
chunk (the first two entries of the read log coincide); the remaining reads
are the sequential chunk reads. -/
theorem spatial_noise_read_count (rec : Recording) (ch : List ℤ)
    (t_first t_last : ℤ) (csize : ℚ) (h1 : 0 < csize) (h2 : t_first < t_last) :
    ∃ p, spatial_noise rec ch t_first t_last csize = .ok p ∧
      p.2.length = 1 + (⌈((t_last : ℚ) - (t_first : ℚ)) / csize⌉).toNat ∧
      p.2.getD 0 (0, 0) = p.2.getD 1 (0, 0) := by
  have hpos : 0 < ((t_last : ℚ) - (t_first : ℚ)) / csize := by
    apply div_pos _ h1
    rw [sub_pos]
    exact_mod_cast h2
  have hn : 1 ≤ (⌈((t_last : ℚ) - (t_first : ℚ)) / csize⌉).toNat := by
    have := Int.ceil_pos.mpr hpos
    omega
  simp only [spatial_noise]
  rw [if_neg (by omega : ¬ (⌈((t_last : ℚ) - (t_first : ℚ)) / csize⌉).toNat < 1)]
  refine ⟨_, rfl, ?_, ?_⟩
  · simp [Nat.add_comm]
  · obtain ⟨m, hm⟩ : ∃ m, (⌈((t_last : ℚ) - (t_first : ℚ)) / csize⌉).toNat = m + 1 :=
      ⟨(⌈((t_last : ℚ) - (t_first : ℚ)) / csize⌉).toNat - 1, by omega⟩
    rw [hm, List.range_succ_eq_map]
    simp

/-- C8 witness: the amended statement instantiated at the counterexample
input (range [0, 4), chunk size 2). -/
theorem spatial_noise_read_count_witness :
    ∃ p, spatial_noise recZero4 [0] 0 4 2 = .ok p ∧
      p.2.length = 1 + (⌈(((4 : ℤ) : ℚ) - ((0 : ℤ) : ℚ)) / 2⌉).toNat ∧
      p.2.getD 0 (0, 0) = p.2.getD 1 (0, 0) :=
  spatial_noise_read_count recZero4 [0] 0 4 2 (by norm_num) (by norm_num)

/-- C10 counterexample: on a recording whose two chunks have medians 0 and
1 the final baseline entry is 1/2, which is not an integer: with an even
number of chunks the median of the int16 chunk medians is a half-integer,
so the baseline is not always integer-valued. -/
theorem baseline_halfint_cex :
    spatial_noise recStep [0] 0 4 2 = .ok ([1 / 2], [(0, 2), (0, 2), (2, 4)]) ∧
    ¬ ∃ z : ℤ, ((1 : ℚ) / 2) = (z : ℚ) := by
  refine ⟨by with_unfolding_all rfl, ?_⟩
  rintro ⟨z, hz⟩
  have h2 : ((1 : ℚ) / 2).den = 2 := by with_unfolding_all rfl
  rw [hz, Rat.den_intCast] at h2
  exact absurd h2 (by decide)

/-- C10 (amended): every per-chunk median is stored truncated into an int16
array before the median of medians is taken, so every entry of the baseline
is the median of a list of integers: it is an integer whenever the number
of chunks is odd (in particular for a single chunk), and in general an
integer or half an integer — but with an even chunk count it can be a
half-integer, so the baseline is not always integer-valued as claimed. -/
theorem spatial_noise_baseline_halfint (rec : Recording) (ch : List ℤ)
    (t_first t_last : ℤ) (csize : ℚ) (p : List ℚ × List (ℤ × ℤ))
    (h : spatial_noise rec ch t_first t_last csize = .ok p) :
    ∀ v ∈ p.1, (∃ z : ℤ, v = (z : ℚ) ∨ v = (z : ℚ) / 2) ∧
      ((⌈((t_last : ℚ) - (t_first : ℚ)) / csize⌉).toNat % 2 = 1 → ∃ z : ℤ, v = (z : ℚ)) := by
  simp only [spatial_noise] at h
  split at h
  · exact absurd h (by simp)
  · next hn =>
    injection h with h
    intro v hv
    rw [← h] at hv
    simp only [List.mem_map, List.mem_range] at hv
    obtain ⟨c, -, rfl⟩ := hv
    refine ⟨(npMedian_of_int_rows _ c ?_).1, fun hodd => (npMedian_of_int_rows _ c ?_).2 ?_⟩
    · intro h0
      simp at h0
      omega
    · intro h0
      simp at h0
      omega
    · simpa using hodd

/-- C10 witness: the amended statement instantiated at the counterexample
input, where the baseline entry 1/2 is indeed half an integer. -/
theorem spatial_noise_baseline_halfint_witness :
    ∃ z : ℤ, ((1 : ℚ) / 2) = (z : ℚ) ∨ ((1 : ℚ) / 2) = (z : ℚ) / 2 :=
  ((spatial_noise_baseline_halfint recStep [0] 0 4 2
    ([1 / 2], [(0, 2), (0, 2), (2, 4)]) (by with_unfolding_all rfl))
    (1 / 2) (by simp)).1

/-- C3 counterexample: over the two-sample range [0, 2) with values 0 and 1
(one chunk, chunk size 10 at least the range length) the estimator returns
0 while the exact per-channel median is 1/2: the chunk median is truncated
into an int16 array before the median of medians, so even the single-chunk
output differs from the exact median. -/
theorem single_chunk_median_cex :
    spatial_noise recHalf [0] 0 2 10 = .ok ([0], [(0, 2), (0, 2)]) ∧
    exact_median_spec recHalf 0 2 [0] = [1 / 2] ∧ ((0 : ℚ) ≠ 1 / 2) := by
  exact ⟨by with_unfolding_all rfl, by with_unfolding_all rfl, by norm_num⟩

/-- C3 (amended): when the chunk size is at least the range length (one
chunk), the estimator output equals the exact per-channel median truncated
toward zero into int16 — hence it equals the exact median exactly when that
median is an int16-representable integer, and differs whenever the exact
median is fractional. -/
theorem single_chunk_noise_eq_trunc_median (rec : Recording) (ch : List ℤ)
    (t_first t_last : ℤ) (csize : ℚ) (h1 : 0 < csize) (h2 : t_first < t_last)
    (h3 : (t_last : ℚ) - (t_first : ℚ) ≤ csize) :
    ∃ p, spatial_noise rec ch t_first t_last csize = .ok p ∧
      p.1 = (exact_median_spec rec t_first t_last ch).map (fun q => ((toInt16 q : ℤ) : ℚ)) := by
  have hpos : 0 < ((t_last : ℚ) - (t_first : ℚ)) / csize := by
    apply div_pos _ h1
    rw [sub_pos]
    exact_mod_cast h2
  have hceil : ⌈((t_last : ℚ) - (t_first : ℚ)) / csize⌉ = 1 := by
    rw [Int.ceil_eq_iff]
    refine ⟨by push_cast; linarith, ?_⟩
    push_cast
    rw [div_le_one h1]
    exact h3
  have hr1 : List.range 1 = [0] := by decide
  simp only [spatial_noise, hceil, Int.toNat_one]
  rw [if_neg (by omega : ¬ (1 : ℕ) < 1)]
  refine ⟨_, rfl, ?_⟩
  simp only [hr1, List.map_cons, List.map_nil, List.cons_append, List.nil_append,
    List.getD_cons_zero, List.getD_cons_succ, Nat.cast_zero, zero_mul, add_zero,
    truncQ_intCast, npMedian_singleton, exact_median_spec]
  apply List.ext_getElem
  · simp [colMedians]
  · intro i h1 h2
    simp only [List.getElem_map, List.getElem_range]
    rw [List.getD_eq_getElem _ _ (by simpa using h2), List.getElem_map]

/-- C3 witness: the amended statement instantiated at the counterexample
input (range [0, 2), chunk size 10). -/
theorem single_chunk_noise_eq_trunc_median_witness :
    ∃ p, spatial_noise recHalf [0] 0 2 10 = .ok p ∧
      p.1 = (exact_median_spec recHalf 0 2 [0]).map (fun q => ((toInt16 q : ℤ) : ℚ)) :=
  single_chunk_noise_eq_trunc_median recHalf [0] 0 2 10 (by norm_num) (by norm_num) (by norm_num)

/-- C7 (confirmed): whenever extract_waveforms succeeds, the output has one
row per input timestamp, every row has 2 * half_width time samples of
|channel_selection| values each, and row i is exactly the window read of
timestamp i (the reshaped block around trunc(ts_i * sr), with the CAR
baseline subtracted when car is set) — the probe-loop writes are all
overwritten by the main loop, so row i depends only on timestamp i. -/
theorem extract_output_shape_rows (rec : Recording) (ts : List ℚ) (ch : List ℤ)
    (t sr : ℚ) (n : ℤ) (car : Bool) (wf : List (List (List ℚ)))
    (h : extract_waveforms rec ts ch t sr n car = .ok wf) :
    wf.length = ts.length ∧
    (∀ row ∈ wf, row.length = (2 * n_wf_samples sr t).toNat ∧
      ∀ tr ∈ row, tr.length = ch.length) ∧
    (∃ noise_s, noise_s.length = ch.length ∧ ∀ i, i < ts.length →
      ∃ blk, spikeRead rec ch (n_wf_samples sr t) (ts_to_sample (ts.getD i 0) sr) = .ok blk ∧
        wf.getD i [] = (if car then applyCar noise_s blk else noCar blk)) := by
  obtain ⟨-, -, -, noise_s, rows, hns, hrows, hwf⟩ := extract_ok_inversion _ _ _ _ _ _ _ _ h
  have hlenr : rows.length = ts.length := by
    have := exceptMapList_ok_length hrows
    simpa using this
  refine ⟨?_, ?_, noise_s, hns, ?_⟩
  · rw [hwf]
    cases car <;> simp [hlenr]
  · intro row hrow
    rw [hwf] at hrow
    have hget : ∃ blk ∈ rows, row = applyCar noise_s blk ∨ row = noCar blk := by
      cases car <;> simp only [if_pos, if_neg, Bool.false_eq_true, if_true, if_false] at hrow <;>
        [obtain ⟨blk, hblk, rfl⟩ := List.mem_map.mp hrow;
         obtain ⟨blk, hblk, rfl⟩ := List.mem_map.mp hrow]
      · exact ⟨blk, hblk, Or.inr rfl⟩
      · exact ⟨blk, hblk, Or.inl rfl⟩
    obtain ⟨blk, hblk, hcase⟩ := hget
    obtain ⟨c0, -, hc0⟩ := exceptMapList_ok_mem hrows blk hblk
    obtain ⟨hbl, hbtr⟩ := spikeRead_ok_shape _ _ _ _ _ hc0
    rcases hcase with rfl | rfl
    · constructor
      · simpa [applyCar] using hbl
      · intro tr htr
        simp only [applyCar, List.mem_map] at htr
        obtain ⟨tr0, htr0, rfl⟩ := htr
        rw [List.length_zipWith, hbtr tr0 htr0, hns]
        simp
    · constructor
      · simpa [noCar] using hbl
      · intro tr htr
        simp only [noCar, List.mem_map] at htr
        obtain ⟨tr0, htr0, rfl⟩ := htr
        rw [List.length_map]
        exact hbtr tr0 htr0
  · intro i hi
    have hir : i < rows.length := by omega
    have hid := exceptMapList_ok_getD hrows i (by simpa using hi) 0 []
    have hmap : (ts.map (fun x => ts_to_sample x sr)).getD i 0
        = ts_to_sample (ts.getD i 0) sr := getD_map_lt _ _ _ hi _ _
    rw [hmap] at hid
    refine ⟨rows.getD i [], hid, ?_⟩
    rw [hwf]
    cases car
    · rw [if_neg (by simp), if_neg (by simp)]
      exact getD_map_lt _ _ _ hir _ _
    · rw [if_pos rfl, if_pos rfl]
      exact getD_map_lt _ _ _ hir _ _

/-- C7 witness: a successful extraction of five spikes from a 60-sample
ramp recording on two channels, instantiating the shape and
row-correspondence statement. -/
theorem extract_output_shape_rows_witness :
    ∃ wf, extract_waveforms recW [1, 2, 3, 4, 5] [0, 1] 400 10 3 false = .ok wf ∧
      wf.length = 5 := by
  refine ⟨_, by with_unfolding_all rfl, ?_⟩
  have h := extract_output_shape_rows recW [1, 2, 3, 4, 5] [0, 1] 400 10 3 false _
    (by with_unfolding_all rfl)
  exact h.1
